import Mathlib

/-!
Verification of the video-to-text-whisper repository.

The repository transcribes video files: it extracts audio with ffmpeg, runs a
Whisper model, groups the resulting segments into fixed-duration text blocks,
and exports them.  The interesting logic is pure: the block-grouping loop in
`src/whisper_transcriber/core.py` (`transcribe_with_whisper`, duplicated in
`src/main.py`), device selection (`get_device`), the temp-directory lifecycle
in `process_video`, and the CLI driver's exit behaviour (`cli.py`).

Times are modelled as rationals (the Python code manipulates the model's
float timestamps; all claims concern exact arithmetic comparisons), and the
`f"{x:.2f}"` format is modelled by rounding to integer hundredths.
-/

/-- One Whisper segment as consumed by the grouping loop in
`transcribe_with_whisper`: a start time, an end time and a text. -/
structure Segment where
  start : ℚ
  «end» : ℚ
  text : String
deriving DecidableEq, Repr

/-- Model of Python's `str.strip()`: drop leading and trailing whitespace
characters (space, tab, CR, LF — the whitespace the segment texts contain). -/
def pyStrip (s : String) : String :=
  ⟨((s.data.dropWhile Char.isWhitespace).reverse.dropWhile Char.isWhitespace).reverse⟩

/-- Integer number of hundredths used to print a time: `round(q * 100)`
(half-up; the claims only evaluate it at exact two-decimal values, where
every rounding convention agrees with Python's float formatting). -/
def roundCents (q : ℚ) : ℤ :=
  ⌊q * 100 + 1 / 2⌋

/-- Model of Python's `f"{q:.2f}"`: the value printed with exactly two
digits after the decimal point. -/
def fmt2 (q : ℚ) : String :=
  let n := roundCents q
  let sign := if n < 0 then ("-") else ("")
  let m := n.natAbs
  let frac := m % 100
  sign ++ toString (m / 100) ++ (".") ++ (if frac < 10 then ("0") else ("")) ++ toString frac

/-- One rendered block line, Python
`f"[{block_start:.2f} - {last_end:.2f}] {' '.join(current_text)}"`. -/
def fmtBlock (block_start last_end : ℚ) (current_text : List String) : String :=
  ("[") ++ fmt2 block_start ++ (" - ") ++ fmt2 last_end ++ ("] ") ++ String.intercalate (" ") current_text

/-- The grouping loop of `transcribe_with_whisper` in
`src/whisper_transcriber/core.py` (lines 77-88), with its four state
variables `blocks`, `current_text`, `block_start`, `last_end` made explicit.
`none` for `block_start`/`last_end` is Python's `None`; the result is `none`
exactly when the final flush would format `None` with `:.2f` (a `TypeError`
in Python). -/
def groupStrings (block_seconds : ℚ) :
    List Segment → List String → List String → Option ℚ → Option ℚ → Option (List String)
  | [], blocks, current_text, block_start, last_end =>
    if current_text = [] then some blocks
    else
      match block_start, last_end with
      | some bs, some le => some (blocks ++ [fmtBlock bs le current_text])
      | _, _ => none
  | seg :: rest, blocks, current_text, block_start, _last_end =>
    let start := seg.start
    let bs := block_start.getD start
    let current_text := current_text ++ [pyStrip seg.text]
    let last_end := seg.«end»
    if block_seconds ≤ last_end - bs then
      groupStrings block_seconds rest (blocks ++ [fmtBlock bs last_end current_text]) [] none (some last_end)
    else
      groupStrings block_seconds rest blocks current_text (some bs) (some last_end)

/-- Function `transcribe_with_whisper` from `src/whisper_transcriber/core.py`,
restricted to its pure part: the mapping from the model's segment list and
`block_seconds` to the list of formatted block strings. -/
def transcribe_with_whisper (block_seconds : ℚ) (segments : List Segment) : Option (List String) :=
  groupStrings block_seconds segments [] [] none none

theorem roundCents_0 : roundCents 0 = 0 := by
  rw [roundCents, Int.floor_eq_iff]
  norm_num

theorem roundCents_65 : roundCents 65 = 6500 := by
  rw [roundCents, Int.floor_eq_iff]
  norm_num

theorem roundCents_66 : roundCents 66 = 6600 := by
  rw [roundCents, Int.floor_eq_iff]
  norm_num

theorem roundCents_70 : roundCents 70 = 7000 := by
  rw [roundCents, Int.floor_eq_iff]
  norm_num

theorem fmt2_0 : fmt2 0 = "0.00" := by
  unfold fmt2
  rw [roundCents_0]
  decide

theorem fmt2_65 : fmt2 65 = "65.00" := by
  unfold fmt2
  rw [roundCents_65]
  decide

theorem fmt2_66 : fmt2 66 = "66.00" := by
  unfold fmt2
  rw [roundCents_66]
  decide

theorem fmt2_70 : fmt2 70 = "70.00" := by
  unfold fmt2
  rw [roundCents_70]
  decide

/-- Start time of a block of segments: the `start` of its first segment
(`block_start` in the Python loop); junk value 0 on the empty block, which
never occurs. -/
def bStart : List Segment → ℚ
  | [] => 0
  | s :: _ => s.start

/-- End time of a block of segments: the `end` of its last segment
(`last_end` in the Python loop); junk value 0 on the empty block. -/
def bEnd : List Segment → ℚ
  | [] => 0
  | [s] => s.«end»
  | _ :: s :: rest => bEnd (s :: rest)

/-- The text parts of a block: the stripped texts of its segments
(`current_text` in the Python loop). -/
def blockTexts (b : List Segment) : List String :=
  b.map (fun s => pyStrip s.text)

/-- The formatted string the Python loop appends to `blocks` for a block. -/
def renderBlock (b : List Segment) : String :=
  fmtBlock (bStart b) (bEnd b) (blockTexts b)

/-- Structured view of the grouping loop: the same recursion as
`groupStrings`, but carrying the segments of the current block (`acc`)
instead of the formatted state, and returning the partition of the input
into blocks of segments. -/
def groupLoop (block_seconds : ℚ) : List Segment → List Segment → List (List Segment)
  | [], acc => if acc = [] then [] else [acc]
  | s :: rest, acc =>
    let acc' := acc ++ [s]
    if block_seconds ≤ s.«end» - bStart acc' then
      acc' :: groupLoop block_seconds rest []
    else
      groupLoop block_seconds rest acc'

/-- The partition of a segment list into blocks as computed by the grouping
loop of `transcribe_with_whisper`. -/
def groupSegments (block_seconds : ℚ) (segments : List Segment) : List (List Segment) :=
  groupLoop block_seconds segments []

theorem bStart_concat_ne_nil (l : List Segment) (s : Segment) (h : l ≠ []) :
    bStart (l ++ [s]) = bStart l := by
  cases l with
  | nil => exact absurd rfl h
  | cons a as => simp [bStart]

theorem bEnd_concat (l : List Segment) (s : Segment) : bEnd (l ++ [s]) = s.«end» := by
  induction l with
  | nil => simp [bEnd]
  | cons a as ih =>
    cases as with
    | nil => simp [bEnd]
    | cons b bs =>
      have : ((a :: b :: bs) ++ [s]) = a :: ((b :: bs) ++ [s]) := by simp
      rw [this]
      have h2 : (b :: bs) ++ [s] = b :: (bs ++ [s]) := by simp
      rw [h2]
      show bEnd (b :: (bs ++ [s])) = s.«end»
      rw [← h2]
      exact ih

theorem blockTexts_concat (l : List Segment) (s : Segment) :
    blockTexts (l ++ [s]) = blockTexts l ++ [pyStrip s.text] := by
  simp [blockTexts]

theorem blockTexts_nil : blockTexts [] = [] := by
  simp [blockTexts]

/-- The faithful string-state loop agrees with the structured loop: from a
state describing a (possibly empty) current block `acc`, `groupStrings`
returns `some` of the already-emitted `blocks` followed by the rendered
blocks of `groupLoop`. -/
theorem groupStrings_eq_groupLoop (thr : ℚ) :
    ∀ (segs acc : List Segment) (blocks : List String) (le : Option ℚ),
    groupStrings thr segs blocks (blockTexts acc)
        (if acc = [] then none else some (bStart acc))
        (if acc = [] then le else some (bEnd acc))
      = some (blocks ++ (groupLoop thr segs acc).map renderBlock) := by
  intro segs
  induction segs with
  | nil =>
    intro acc blocks le
    cases acc with
    | nil => simp [groupStrings, blockTexts, groupLoop]
    | cons a as => simp [groupStrings, blockTexts, groupLoop, renderBlock, bStart, bEnd]
  | cons s rest ih =>
    intro acc blocks le
    cases acc with
    | nil =>
      simp only [groupStrings, blockTexts, List.map_nil, eq_self_iff_true, ite_true,
        Option.getD_none, Option.getD_some, List.nil_append]
      by_cases hc : thr ≤ s.«end» - s.start
      · rw [if_pos hc]
        have h1 := ih [] (blocks ++ [fmtBlock s.start s.«end» [pyStrip s.text]]) (some s.«end»)
        simp only [blockTexts, List.map_nil, eq_self_iff_true, ite_true] at h1
        rw [h1]
        have h2 : groupLoop thr (s :: rest) [] =
            [s] :: groupLoop thr rest [] := by
          simp [groupLoop, bStart, hc]
        rw [h2]
        have h3 : renderBlock [s] = fmtBlock s.start s.«end» [pyStrip s.text] := by
          simp [renderBlock, bStart, bEnd, blockTexts]
        simp [h3]
      · rw [if_neg hc]
        have h1 := ih [s] blocks le
        have hne : ([s] : List Segment) ≠ [] := by simp
        simp only [if_neg hne, blockTexts, List.map_cons, List.map_nil, bStart, bEnd] at h1
        rw [h1]
        have h2 : groupLoop thr (s :: rest) [] = groupLoop thr rest [s] := by
          simp [groupLoop, bStart, hc]
        rw [h2]
    | cons a as =>
      have hne : (a :: as : List Segment) ≠ [] := by simp
      simp only [groupStrings, if_neg hne, Option.getD_some]
      rw [blockTexts_concat (a :: as) s |>.symm]
      have hbs : bStart ((a :: as) ++ [s]) = bStart (a :: as) :=
        bStart_concat_ne_nil (a :: as) s hne
      by_cases hc : thr ≤ s.«end» - bStart (a :: as)
      · rw [if_pos hc]
        have h1 := ih [] (blocks ++ [fmtBlock (bStart (a :: as)) s.«end» (blockTexts ((a :: as) ++ [s]))]) (some s.«end»)
        simp only [blockTexts_nil, eq_self_iff_true, ite_true] at h1
        rw [h1]
        have h2 : groupLoop thr (s :: rest) (a :: as) =
            ((a :: as) ++ [s]) :: groupLoop thr rest [] := by
          simp only [groupLoop]
          rw [if_pos (by rw [hbs]; exact hc)]
        rw [h2]
        have h3 : renderBlock ((a :: as) ++ [s]) =
            fmtBlock (bStart (a :: as)) s.«end» (blockTexts ((a :: as) ++ [s])) := by
          rw [renderBlock, hbs, bEnd_concat]
        simp [h3]
        exact h3.symm
      · rw [if_neg hc]
        have h1 := ih ((a :: as) ++ [s]) blocks le
        have hne2 : ((a :: as) ++ [s] : List Segment) ≠ [] := by simp
        simp only [if_neg hne2] at h1
        rw [hbs, bEnd_concat] at h1
        rw [h1]
        have h2 : groupLoop thr (s :: rest) (a :: as) =
            groupLoop thr rest ((a :: as) ++ [s]) := by
          simp only [groupLoop]
          rw [if_neg (by rw [hbs]; exact hc)]
        rw [h2]

/-- Function `transcribe_with_whisper` never hits the `None`-formatting path and
produces exactly the rendered blocks of the structured partition. -/
theorem transcribe_eq_groupSegments (thr : ℚ) (segs : List Segment) :
    transcribe_with_whisper thr segs = some ((groupSegments thr segs).map renderBlock) := by
  have h := groupStrings_eq_groupLoop thr segs [] [] none
  simp only [blockTexts, List.map_nil, eq_self_iff_true, ite_true] at h
  simpa [transcribe_with_whisper, groupSegments] using h

/-- The blocks of the grouping loop partition the input: their concatenation
is the current block followed by the remaining segments. -/
theorem groupLoop_join (thr : ℚ) :
    ∀ (segs acc : List Segment), (groupLoop thr segs acc).flatten = acc ++ segs := by
  intro segs
  induction segs with
  | nil =>
    intro acc
    by_cases h : acc = [] <;> simp [groupLoop, h]
  | cons s rest ih =>
    intro acc
    by_cases hc : thr ≤ s.«end» - bStart (acc ++ [s])
    · simp only [groupLoop, if_pos hc, List.flatten_cons, ih]
      simp
    · simp only [groupLoop, if_neg hc, ih]
      simp

/-- Every block produced by the grouping loop is non-empty. -/
theorem groupLoop_ne_nil (thr : ℚ) :
    ∀ (segs acc : List Segment), ∀ b ∈ groupLoop thr segs acc, b ≠ [] := by
  intro segs
  induction segs with
  | nil =>
    intro acc b hb
    by_cases h : acc = []
    · simp [groupLoop, h] at hb
    · simp only [groupLoop, if_neg h, List.mem_singleton] at hb
      subst hb
      exact h
  | cons s rest ih =>
    intro acc b hb
    by_cases hc : thr ≤ s.«end» - bStart (acc ++ [s])
    · simp only [groupLoop, if_pos hc, List.mem_cons] at hb
      rcases hb with hb | hb
      · subst hb
        simp
      · exact ih [] b hb
    · simp only [groupLoop, if_neg hc] at hb
      exact ih (acc ++ [s]) b hb

/-- Every block except possibly the last spans at least the threshold:
it was emitted by the `last_end - block_start >= block_seconds` test. -/
theorem groupLoop_dropLast_spans (thr : ℚ) :
    ∀ (segs acc : List Segment), ∀ b ∈ (groupLoop thr segs acc).dropLast,
      thr ≤ bEnd b - bStart b := by
  intro segs
  induction segs with
  | nil =>
    intro acc b hb
    by_cases h : acc = [] <;> simp [groupLoop, h] at hb
  | cons s rest ih =>
    intro acc b hb
    by_cases hc : thr ≤ s.«end» - bStart (acc ++ [s])
    · simp only [groupLoop, if_pos hc] at hb
      rcases hL : groupLoop thr rest [] with _ | ⟨c, L⟩
      · rw [hL] at hb
        simp at hb
      · rw [hL, List.dropLast_cons_of_ne_nil (by simp), List.mem_cons] at hb
        rcases hb with hb | hb
        · subst hb
          rw [bEnd_concat]
          exact hc
        · have := ih [] b
          rw [hL] at this
          exact this hb
    · simp only [groupLoop, if_neg hc] at hb
      exact ih (acc ++ [s]) b hb

/-- During accumulation no prefix of the current block has yet crossed the
threshold; hence every proper prefix of every emitted block is under the
threshold (the loop emits as soon as the threshold is crossed). -/
theorem groupLoop_prefixes_under (thr : ℚ) :
    ∀ (segs acc : List Segment),
      (∀ k, 0 < k → k ≤ acc.length → bEnd (acc.take k) - bStart (acc.take k) < thr) →
      ∀ b ∈ groupLoop thr segs acc, ∀ k, 0 < k → k < b.length →
        bEnd (b.take k) - bStart (b.take k) < thr := by
  intro segs
  induction segs with
  | nil =>
    intro acc hacc b hb k hk hkb
    by_cases h : acc = []
    · simp [groupLoop, h] at hb
    · simp only [groupLoop, if_neg h, List.mem_singleton] at hb
      subst hb
      exact hacc k hk (Nat.le_of_lt hkb)
  | cons s rest ih =>
    intro acc hacc b hb k hk hkb
    have hstep : ∀ j, 0 < j → j ≤ (acc ++ [s]).length →
        ¬ thr ≤ s.«end» - bStart (acc ++ [s]) →
        bEnd ((acc ++ [s]).take j) - bStart ((acc ++ [s]).take j) < thr := by
      intro j hj hjl hnc
      rcases Nat.lt_or_ge j (acc.length + 1) with hjc | hjc
      · have hja : j ≤ acc.length := Nat.lt_succ_iff.mp hjc
        rw [List.take_append_of_le_length hja]
        exact hacc j hj hja
      · have hlen : (acc ++ [s]).length = acc.length + 1 := by simp
        have hje : j = (acc ++ [s]).length := by omega
        rw [hje, List.take_length]
        rw [bEnd_concat]
        exact lt_of_not_le hnc
    by_cases hc : thr ≤ s.«end» - bStart (acc ++ [s])
    · simp only [groupLoop, if_pos hc, List.mem_cons] at hb
      rcases hb with hb | hb
      · subst hb
        have hkle : k ≤ acc.length := by
          have hlen : (acc ++ [s]).length = acc.length + 1 := by simp
          omega
        rw [List.take_append_of_le_length hkle]
        exact hacc k hk hkle
      · refine ih [] ?_ b hb k hk hkb
        intro j hj hjl
        rw [List.length_nil, Nat.le_zero] at hjl
        exact absurd hjl (by omega)
    · simp only [groupLoop, if_neg hc] at hb
      exact ih (acc ++ [s]) (fun j hj hjl => hstep j hj hjl hc) b hb k hk hkb

/-- A segment list as produced by the speech model: each segment's start is
at most its end, and consecutive segments do not overlap (each ends no later
than the next starts). -/
def SegsOrdered (l : List Segment) : Prop :=
  (∀ s ∈ l, s.start ≤ s.«end») ∧ l.Chain' (fun a b => a.«end» ≤ b.start)

theorem bEnd_cons_cons (a c : Segment) (cs : List Segment) :
    bEnd (a :: c :: cs) = bEnd (c :: cs) := by
  simp [bEnd]

theorem bEnd_eq_getLast :
    ∀ (l : List Segment) (t : Segment), l.getLast? = some t → bEnd l = t.«end» := by
  intro l
  induction l with
  | nil =>
    intro t ht
    simp at ht
  | cons a as ih =>
    intro t ht
    cases as with
    | nil =>
      simp at ht
      subst ht
      simp [bEnd]
    | cons c cs =>
      rw [List.getLast?_cons_cons] at ht
      rw [bEnd_cons_cons]
      exact ih t ht

/-- Within a single ordered block, the start bound is at most the end bound. -/
theorem bStart_le_bEnd :
    ∀ (b : List Segment), b ≠ [] →
      (∀ s ∈ b, s.start ≤ s.«end») →
      b.Chain' (fun a c => a.«end» ≤ c.start) →
      bStart b ≤ bEnd b := by
  intro b
  induction b with
  | nil =>
    intro h
    exact absurd rfl h
  | cons a as ih =>
    intro _ hspan hchain
    cases as with
    | nil => simpa [bStart, bEnd] using hspan a (by simp)
    | cons c cs =>
      have h1 : a.start ≤ a.«end» := hspan a (by simp)
      have h2 : a.«end» ≤ c.start := (List.chain'_cons.mp hchain).1
      have h3 := ih (by simp) (fun s hs => hspan s (by simp [hs]))
        (List.chain'_cons.mp hchain).2
      rw [bEnd_cons_cons]
      show a.start ≤ bEnd (c :: cs)
      calc a.start ≤ c.start := le_trans h1 h2
        _ = bStart (c :: cs) := rfl
        _ ≤ bEnd (c :: cs) := h3

/-- For a partition into non-empty blocks whose concatenation is ordered,
the flattened sequence of block boundaries is monotonically non-decreasing
(each block is well-formed and ends no later than the next starts). -/
theorem chain_flat_bounds :
    ∀ (P : List (List Segment)),
      (∀ b ∈ P, b ≠ []) →
      (∀ s ∈ P.flatten, s.start ≤ s.«end») →
      P.flatten.Chain' (fun a b => a.«end» ≤ b.start) →
      List.Chain' (· ≤ ·) (P.flatMap (fun b => [bStart b, bEnd b])) := by
  intro P
  induction P with
  | nil =>
    intro _ _ _
    simp
  | cons b P' ih =>
    intro hne hspan hchain
    have hbne : b ≠ [] := hne b (by simp)
    rw [List.flatten_cons] at hspan hchain
    have hsplit := List.chain'_append.mp hchain
    have hspanb : ∀ s ∈ b, s.start ≤ s.«end» := fun s hs => hspan s (by simp [hs])
    have hspanP : ∀ s ∈ P'.flatten, s.start ≤ s.«end» := fun s hs => hspan s (by simp [hs])
    have hbb : bStart b ≤ bEnd b := bStart_le_bEnd b hbne hspanb hsplit.1
    have hih := ih (fun c hc => hne c (by simp [hc])) hspanP hsplit.2.1
    simp only [List.flatMap_cons, List.cons_append, List.nil_append]
    cases P' with
    | nil =>
      simp only [List.flatMap_nil]
      exact List.chain'_cons.mpr ⟨hbb, List.chain'_singleton _⟩
    | cons b2 P'' =>
      have hb2ne : b2 ≠ [] := hne b2 (by simp)
      obtain ⟨t, ht⟩ : ∃ t, b.getLast? = some t := by
        cases hgl : b.getLast? with
        | none => exact absurd (List.getLast?_eq_none_iff.mp hgl) hbne
        | some t => exact ⟨t, rfl⟩
      obtain ⟨c, cs, hb2⟩ : ∃ c cs, b2 = c :: cs := by
        cases b2 with
        | nil => exact absurd rfl hb2ne
        | cons c cs => exact ⟨c, cs, rfl⟩
      have hhead : ((b2 :: P'').flatten).head? = some c := by
        rw [List.flatten_cons, hb2]
        simp
      have hlink : t.«end» ≤ c.start := hsplit.2.2 t (by rw [ht]; rfl) c (by rw [hhead]; rfl)
      have hbe : bEnd b = t.«end» := bEnd_eq_getLast b t ht
      have hstart2 : bStart b2 = c.start := by rw [hb2]; rfl
      refine List.chain'_cons.mpr ⟨hbb, ?_⟩
      have hflat2 : (b2 :: P'').flatMap (fun b => [bStart b, bEnd b]) =
          bStart b2 :: bEnd b2 :: P''.flatMap (fun b => [bStart b, bEnd b]) := by
        simp [List.flatMap_cons]
      rw [hflat2] at hih ⊢
      refine List.chain'_cons.mpr ⟨?_, hih⟩
      rw [hbe, hstart2]
      exact hlink

theorem flatMap_blockTexts (P : List (List Segment)) :
    P.flatMap blockTexts = P.flatten.map (fun s => pyStrip s.text) := by
  induction P with
  | nil => simp
  | cons b P' ih => simp [blockTexts, ih]

/-- C1: the grouping in `transcribe_with_whisper` is the greedy blocking:
it renders a partition of the segment sequence into non-empty consecutive
blocks (so the final partial block is flushed even when under the
threshold), in which every non-final block spans at least
`last_segment_end - block_start >= threshold` (the block closes exactly
when the crossing segment is appended, so that segment is included) and no
proper prefix of any block reaches the threshold (the loop resets
immediately after emitting). -/
theorem claim_C1_greedy_grouping (block_seconds : ℚ) (segments : List Segment) :
    transcribe_with_whisper block_seconds segments =
      some ((groupSegments block_seconds segments).map renderBlock) ∧
    (groupSegments block_seconds segments).flatten = segments ∧
    (groupSegments block_seconds segments).all (fun b => !(b.isEmpty)) = true ∧
    ((groupSegments block_seconds segments).dropLast.all
      (fun b => decide (block_seconds ≤ bEnd b - bStart b))) = true ∧
    ((groupSegments block_seconds segments).all
      (fun b => (List.range b.length).all
        (fun k => (k == 0) ||
          decide (bEnd (b.take k) - bStart (b.take k) < block_seconds)))) = true := by
  refine ⟨transcribe_eq_groupSegments block_seconds segments, ?_, ?_, ?_, ?_⟩
  · simpa using groupLoop_join block_seconds segments []
  · simp only [List.all_eq_true, Bool.not_eq_true', List.isEmpty_eq_false]
    exact groupLoop_ne_nil block_seconds segments []
  · simp only [List.all_eq_true, decide_eq_true_eq]
    exact groupLoop_dropLast_spans block_seconds segments []
  · simp only [List.all_eq_true, Bool.or_eq_true, beq_iff_eq, decide_eq_true_eq,
      List.mem_range]
    intro b hb k hk
    rcases Nat.eq_zero_or_pos k with h0 | hpos
    · exact Or.inl h0
    · refine Or.inr ?_
      refine groupLoop_prefixes_under block_seconds segments [] ?_ b hb k hpos hk
      intro j hj hjl
      rw [List.length_nil, Nat.le_zero] at hjl
      exact absurd hjl (by omega)

/-- C2: grouping preserves the text content — flattening the blocks' text
parts (the stripped segment texts, as the loop stores them) gives exactly
the stripped texts of the input segments, in order — and for an ordered
segment sequence the block time boundaries are monotonically
non-decreasing. -/
theorem claim_C2_text_preserved_monotone (block_seconds : ℚ) (segments : List Segment)
    (h : SegsOrdered segments) :
    transcribe_with_whisper block_seconds segments =
      some ((groupSegments block_seconds segments).map renderBlock) ∧
    (groupSegments block_seconds segments).flatMap blockTexts =
      segments.map (fun s => pyStrip s.text) ∧
    List.Chain' (· ≤ ·)
      ((groupSegments block_seconds segments).flatMap (fun b => [bStart b, bEnd b])) := by
  have hj : (groupSegments block_seconds segments).flatten = segments := by
    simpa using groupLoop_join block_seconds segments []
  refine ⟨transcribe_eq_groupSegments block_seconds segments, ?_, ?_⟩
  · rw [flatMap_blockTexts, hj]
  · refine chain_flat_bounds _ (groupLoop_ne_nil block_seconds segments []) ?_ ?_
    · rw [hj]
      exact h.1
    · rw [hj]
      exact h.2

theorem claim_C2_witness :
    SegsOrdered [⟨0, 30, ("a")⟩, ⟨31, 65, ("b")⟩] ∧
    (transcribe_with_whisper 60 [⟨0, 30, ("a")⟩, ⟨31, 65, ("b")⟩] =
      some ((groupSegments 60 [⟨0, 30, ("a")⟩, ⟨31, 65, ("b")⟩]).map renderBlock) ∧
    (groupSegments 60 [⟨0, 30, ("a")⟩, ⟨31, 65, ("b")⟩]).flatMap blockTexts =
      [⟨0, 30, ("a")⟩, ⟨31, 65, ("b")⟩].map (fun s : Segment => pyStrip s.text) ∧
    List.Chain' (· ≤ ·)
      ((groupSegments 60 [⟨0, 30, ("a")⟩, ⟨31, 65, ("b")⟩]).flatMap
        (fun b => [bStart b, bEnd b]))) := by
  have hord : SegsOrdered [⟨0, 30, ("a")⟩, ⟨31, 65, ("b")⟩] := by
    constructor
    · intro s hs
      fin_cases hs <;> norm_num
    · refine List.chain'_cons.mpr ⟨by norm_num, List.chain'_singleton _⟩
  exact ⟨hord, claim_C2_text_preserved_monotone 60 _ hord⟩

/-- C3: for an ordered segment sequence, the blocks cover the full segment
sequence in order with no gaps and no drops (their concatenation is exactly
the input), every block — including the flushed final partial one — is
non-empty, and the flattened block boundaries are monotone, i.e. blocks are
well-formed, time-ordered and non-overlapping. -/
theorem claim_C3_blocks_partition (block_seconds : ℚ) (segments : List Segment)
    (h : SegsOrdered segments) :
    transcribe_with_whisper block_seconds segments =
      some ((groupSegments block_seconds segments).map renderBlock) ∧
    (groupSegments block_seconds segments).flatten = segments ∧
    (∀ b ∈ groupSegments block_seconds segments, b ≠ []) ∧
    List.Chain' (· ≤ ·)
      ((groupSegments block_seconds segments).flatMap (fun b => [bStart b, bEnd b])) := by
  have hj : (groupSegments block_seconds segments).flatten = segments := by
    simpa using groupLoop_join block_seconds segments []
  refine ⟨transcribe_eq_groupSegments block_seconds segments, hj,
    groupLoop_ne_nil block_seconds segments [], ?_⟩
  refine chain_flat_bounds _ (groupLoop_ne_nil block_seconds segments []) ?_ ?_
  · rw [hj]
    exact h.1
  · rw [hj]
    exact h.2

theorem claim_C3_witness :
    SegsOrdered [⟨0, 10, ("x")⟩] ∧
    (transcribe_with_whisper 60 [⟨0, 10, ("x")⟩] =
      some ((groupSegments 60 [⟨0, 10, ("x")⟩]).map renderBlock) ∧
    (groupSegments 60 [⟨0, 10, ("x")⟩]).flatten = [⟨0, 10, ("x")⟩] ∧
    (∀ b ∈ groupSegments 60 [⟨0, 10, ("x")⟩], b ≠ []) ∧
    List.Chain' (· ≤ ·)
      ((groupSegments 60 [⟨0, 10, ("x")⟩]).flatMap (fun b => [bStart b, bEnd b]))) := by
  have hord : SegsOrdered [⟨0, 10, ("x")⟩] := by
    constructor
    · intro s hs
      fin_cases hs
      norm_num
    · exact List.chain'_singleton _
  exact ⟨hord, claim_C3_blocks_partition 60 _ hord⟩

/-- C4: every block except possibly the final trailing one spans at least
the threshold. -/
theorem claim_C4_nonfinal_span (block_seconds : ℚ) (segments : List Segment) :
    transcribe_with_whisper block_seconds segments =
      some ((groupSegments block_seconds segments).map renderBlock) ∧
    ((groupSegments block_seconds segments).dropLast.all
      (fun b => decide (block_seconds ≤ bEnd b - bStart b))) = true := by
  refine ⟨transcribe_eq_groupSegments block_seconds segments, ?_⟩
  simp only [List.all_eq_true, decide_eq_true_eq]
  exact groupLoop_dropLast_spans block_seconds segments []

/-- C5: on segments `[(0,30,"a"),(31,65,"b"),(66,70,"c")]` with threshold
60 the grouping produces exactly the two blocks `[0.00 - 65.00] a b` and
`[66.00 - 70.00] c`. -/
theorem claim_C5_concrete_example :
    transcribe_with_whisper 60
      [⟨0, 30, ("a")⟩, ⟨31, 65, ("b")⟩, ⟨66, 70, ("c")⟩] =
      some [("[0.00 - 65.00] a b"), ("[66.00 - 70.00] c")] := by
  have c1 : ¬ ((60:ℚ) ≤ 30 - 0) := by norm_num
  have c2 : ((60:ℚ) ≤ 65 - 0) := by norm_num
  have c3 : ¬ ((60:ℚ) ≤ 70 - 66) := by norm_num
  rw [transcribe_with_whisper]
  simp only [groupStrings, Option.getD]
  norm_num [c1, c2, c3, fmtBlock, fmt2_0, fmt2_65, fmt2_66, fmt2_70]
  decide

/-- C9: the grouping is total — on the empty segment sequence it returns
`some []`, and on every sequence the result is `some` (the final flush's
`if current_text:` guard ensures `block_start` and `last_end` are never
`None` when formatted, so the `none` branch of `groupStrings` is
unreachable). -/
theorem claim_C9_total_no_none (block_seconds : ℚ) (segments : List Segment) :
    (transcribe_with_whisper block_seconds segments).isSome = true ∧
    transcribe_with_whisper block_seconds [] = some [] := by
  constructor
  · rw [transcribe_eq_groupSegments]
    rfl
  · rw [transcribe_eq_groupSegments]
    simp [groupSegments, groupLoop]

/-- The grouping loop of `transcribe_with_whisper` in `src/main.py`
(lines 80-105): same state variables (`blocks`, `current_text`,
`block_start`, `last_end`) and the same per-segment body, with the block
string built via the intermediate `block_text` variable. -/
def mainGroupStrings (block_seconds : ℚ) :
    List Segment → List String → List String → Option ℚ → Option ℚ → Option (List String)
  | [], blocks, current_text, block_start, last_end =>
    if current_text = [] then some blocks
    else
      match block_start, last_end with
      | some bs, some le =>
        let block_text := String.intercalate (" ") current_text
        some (blocks ++ [("[") ++ fmt2 bs ++ (" - ") ++ fmt2 le ++ ("] ") ++ block_text])
      | _, _ => none
  | seg :: rest, blocks, current_text, block_start, _last_end =>
    let start := seg.start
    let bs := block_start.getD start
    let current_text := current_text ++ [pyStrip seg.text]
    let last_end := seg.«end»
    if block_seconds ≤ last_end - bs then
      let block_text := String.intercalate (" ") current_text
      mainGroupStrings block_seconds rest
        (blocks ++ [("[") ++ fmt2 bs ++ (" - ") ++ fmt2 last_end ++ ("] ") ++ block_text])
        [] none (some last_end)
    else
      mainGroupStrings block_seconds rest blocks current_text (some bs) (some last_end)

/-- Function `transcribe_with_whisper` from `src/main.py`, restricted to its pure
block-grouping part. -/
def main_transcribe_with_whisper (block_seconds : ℚ) (segments : List Segment) :
    Option (List String) :=
  mainGroupStrings block_seconds segments [] [] none none

theorem mainGroupStrings_eq_groupStrings (thr : ℚ) :
    ∀ (segs : List Segment) (blocks current_text : List String)
      (block_start last_end : Option ℚ),
      mainGroupStrings thr segs blocks current_text block_start last_end =
        groupStrings thr segs blocks current_text block_start last_end := by
  intro segs
  induction segs with
  | nil =>
    intro blocks ct bs le
    rfl
  | cons s rest ih =>
    intro blocks ct bs le
    simp only [mainGroupStrings, groupStrings]
    by_cases hc : thr ≤ s.«end» - bs.getD s.start
    · rw [if_pos hc, if_pos hc, ih]
      rfl
    · rw [if_neg hc, if_neg hc, ih]

/-- C10: the block-grouping loop in `src/main.py` and the one in
`src/whisper_transcriber/core.py` produce identical formatted block lists
on every segment sequence and threshold. -/
theorem claim_C10_main_core_equivalent (block_seconds : ℚ) (segments : List Segment) :
    main_transcribe_with_whisper block_seconds segments =
      transcribe_with_whisper block_seconds segments := by
  rw [main_transcribe_with_whisper, transcribe_with_whisper,
    mainGroupStrings_eq_groupStrings]

/-- Function `get_device` from `src/whisper_transcriber/core.py` (lines 38-50),
with `torch.cuda.is_available()` modelled by the `cuda_available` flag and
the prints elided.  `none` is Python's `None` default. -/
def get_device (device_preference : Option String) (cuda_available : Bool) : String :=
  if device_preference = some ("cuda") ∧ cuda_available = true then ("cuda")
  else if device_preference = some ("cpu") then ("cpu")
  else if cuda_available then ("cuda") else ("cpu")

/-- C7 counterexample: with no preference and CUDA available, `get_device`
auto-detects and returns `"cuda"`, not the general-purpose `"cpu"` the
claim requires for an unset preference. -/
theorem claim_C7_counterexample :
    get_device none true = ("cuda") ∧ get_device none true ≠ ("cpu") := by
  decide

/-- C7 (amended): `get_device` returns `"cpu"` whenever accelerated
hardware is unavailable (in particular a `"cuda"` request falls back to
`"cpu"` without raising), honors a satisfiable explicit preference, and
with the preference unset auto-detects `"cuda"` when available and `"cpu"`
otherwise; it always returns one of the two usable modes. -/
theorem claim_C7_amended (device_preference : Option String) (cuda_available : Bool) :
    get_device device_preference false = ("cpu") ∧
    get_device (some ("cpu")) cuda_available = ("cpu") ∧
    get_device (some ("cuda")) true = ("cuda") ∧
    get_device none cuda_available = (if cuda_available then ("cuda") else ("cpu")) ∧
    (get_device device_preference cuda_available = ("cpu") ∨
      get_device device_preference cuda_available = ("cuda")) := by
  refine ⟨?_, ?_, ?_, ?_, ?_⟩
  · simp only [get_device]
    split_ifs with h1 h2 <;> simp_all
  · simp [get_device]
  · simp [get_device]
  · cases cuda_available <;> simp [get_device]
  · simp only [get_device]
    split_ifs <;> simp

/-- Model of `shutil.rmtree(temp_dir, ...)`: remove the directory and everything
under it, modelled on a filesystem that is a list of paths. -/
def rmtree (fs : List String) (temp_dir : String) : List String :=
  fs.filter (fun p => !(p.startsWith temp_dir))

/-- Function `process_video` from `src/whisper_transcriber/core.py` (lines 136-158)
restricted to its effect on the scoped temporary directory:
`tempfile.mkdtemp` creates `temp_dir`, the `try` block runs the pipeline
(`extract_audio` writes `temp_dir + "/temp_audio.wav"`; transcription and
the exporters may write further paths, abstracted as `pipelineWrites`,
before returning or raising), and the `finally` clause always runs
`shutil.rmtree(temp_dir)`.  The second component is `some ()` when the
pipeline raised — the exception propagates after the `finally` ran. -/
def process_video (fs : List String) (temp_dir : String)
    (pipelineWrites : List String) (raises : Bool) : List String × Option Unit :=
  let fs1 := temp_dir :: fs
  if raises then
    (rmtree (pipelineWrites ++ fs1) temp_dir, some ())
  else
    let audio_file := temp_dir ++ ("/temp_audio.wav")
    (rmtree (audio_file :: pipelineWrites ++ fs1) temp_dir, none)

/-- C6: after `process_video` returns — whether the pipeline succeeded or
raised — no path under the scoped temporary directory (the directory
itself included) remains on the filesystem. -/
theorem claim_C6_tempdir_removed (fs : List String) (temp_dir : String)
    (pipelineWrites : List String) (raises : Bool) :
    ((process_video fs temp_dir pipelineWrites raises).1.all
      (fun p => !(p.startsWith temp_dir))) = true := by
  cases raises <;>
    simp only [process_video, rmtree, List.all_eq_true, List.mem_filter,
      Bool.false_eq_true, eq_self_iff_true, if_false, ite_true, ite_false] <;>
    exact fun p hp => hp.2

/-- Model of Python's `str.lower()` (character-wise lowercasing, as applied
to file names before the extension check). -/
def pyLower (s : String) : String :=
  ⟨s.data.map Char.toLower⟩

/-- Model of Python's `str.endswith(suffix)`. -/
def pyEndsWith (s suffix : String) : Bool :=
  List.isSuffixOf suffix.data s.data

/-- Constant `VIDEO_EXTENSIONS` from `src/whisper_transcriber/core.py`. -/
def VIDEO_EXTENSIONS : List String :=
  [(".mp4"), (".avi"), (".mov"), (".mkv"), (".flv"), (".wmv")]

/-- Python `f.lower().endswith(VIDEO_EXTENSIONS)` — the file filter used by the
CLI driver for both the single-file check and the directory walk. -/
def hasVideoExt (f : String) : Bool :=
  VIDEO_EXTENSIONS.any (fun e => pyEndsWith (pyLower f) e)

/-- The `os.walk` collection loop of `cli.main`, with the walk flattened to
the list of file names it visits. -/
def find_videos (files : List String) : List String :=
  files.filter hasVideoExt

/-- Classification of the CLI's positional `input` argument: an existing
file, an existing directory (with the files its recursive walk visits), or
anything else. -/
inductive CliInput where
  | file (path : String)
  | dir (files : List String)
  | other
deriving DecidableEq

/-- Observable outcome of one `cli.main` run: the process exit code, the
status messages relevant to the claims, and the videos handed to
`process_video` (the executed jobs). -/
structure CliResult where
  exitCode : ℕ
  messages : List String
  jobs : List String
deriving DecidableEq, Repr

/-- Function `get_ffmpeg_path` from `src/whisper_transcriber/cli.py` (lines 7-15):
the system path lookup (`shutil.which`) is modelled by `system_ffmpeg`, the
bundled binary check by `local_ffmpeg_exists`; `Except.error 1` is
`sys.exit(1)`. -/
def get_ffmpeg_path (system_ffmpeg : Option String) (local_ffmpeg_exists : Bool) :
    Except ℕ String :=
  match system_ffmpeg with
  | some p => Except.ok p
  | none =>
    if local_ffmpeg_exists then Except.ok ("./ffmpeg/bin/ffmpeg.exe")
    else Except.error 1

/-- Function `main` from `src/whisper_transcriber/cli.py` (lines 32-47), restricted
to its control flow: resolve ffmpeg (exiting with status 1 when absent),
then dispatch on the input; each `process_video` call is recorded as a job
rather than executed. -/
def cli_main (system_ffmpeg : Option String) (local_ffmpeg_exists : Bool)
    (inp : CliInput) : CliResult :=
  match get_ffmpeg_path system_ffmpeg local_ffmpeg_exists with
  | Except.error code =>
    ⟨code, [("[ERROR] ffmpeg not found! Install globally or place in ./ffmpeg/bin/")], []⟩
  | Except.ok _ =>
    match inp with
    | CliInput.file path =>
      if hasVideoExt path then ⟨0, [], [path]⟩
      else ⟨0, [("Error: provide a path to a video file or folder containing videos.")], []⟩
    | CliInput.dir files =>
      let videos := find_videos files
      if videos = [] then ⟨0, [("No video files found in the folder.")], []⟩
      else ⟨0, [("Found ") ++ toString videos.length ++ (" video file(s).")], videos⟩
    | CliInput.other =>
      ⟨0, [("Error: provide a path to a video file or folder containing videos.")], []⟩

/-- C8: the CLI exits with a non-zero status exactly when ffmpeg is found
neither on the system path nor as the bundled local binary; in every other
case it finishes with status 0, and a directory scan matching no video
files prints the "no files found" message and executes zero jobs. -/
theorem claim_C8_exit_and_empty_scan (system_ffmpeg : Option String)
    (local_ffmpeg_exists : Bool) (inp : CliInput) (files : List String)
    (hscan : find_videos files = []) :
    ((cli_main system_ffmpeg local_ffmpeg_exists inp).exitCode ≠ 0 ↔
      system_ffmpeg = none ∧ local_ffmpeg_exists = false) ∧
    ((system_ffmpeg ≠ none ∨ local_ffmpeg_exists = true) →
      cli_main system_ffmpeg local_ffmpeg_exists (CliInput.dir files) =
        ⟨0, [("No video files found in the folder.")], []⟩) := by
  constructor
  · rcases system_ffmpeg with _ | p
    · cases local_ffmpeg_exists
      · simp [cli_main, get_ffmpeg_path]
      · cases inp <;> simp [cli_main, get_ffmpeg_path] <;> split_ifs <;> simp
    · cases inp <;> simp [cli_main, get_ffmpeg_path] <;> split_ifs <;> simp
  · intro hff
    rcases system_ffmpeg with _ | p
    · rcases hff with hff | hff
      · exact absurd rfl hff
      · rw [hff]
        simp [cli_main, get_ffmpeg_path, hscan]
    · simp [cli_main, get_ffmpeg_path, hscan]

theorem claim_C8_witness :
    find_videos [("notes.txt")] = [] ∧
    (((cli_main (some ("/usr/bin/ffmpeg")) false
        (CliInput.dir [("notes.txt")])).exitCode ≠ 0 ↔
      some ("/usr/bin/ffmpeg") = none ∧ false = false) ∧
    ((some ("/usr/bin/ffmpeg") ≠ none ∨ false = true) →
      cli_main (some ("/usr/bin/ffmpeg")) false (CliInput.dir [("notes.txt")]) =
        ⟨0, [("No video files found in the folder.")], []⟩)) := by
  refine ⟨by decide, ?_⟩
  exact claim_C8_exit_and_empty_scan (some ("/usr/bin/ffmpeg")) false
    (CliInput.dir [("notes.txt")]) [("notes.txt")] (by decide)
